import Mathlib

/-!
Verification of the rule-based categorization engine of a personal-finance
dashboard (sources: `categorization.py`, `utils.py`, `storage.py`, `app.py`).

The Python code is shallowly embedded: a pandas batch becomes a list of
transactions, the SQLite snapshot becomes a list of stored categories, and a
raised exception becomes `Except.error`.  Python's `re` module is modelled for
the metacharacter subset exercised by the engine (literal characters, `.`,
`*`, and a leading `^` anchor); every other metacharacter is reported as a
parse failure by the model.  Case mapping and whitespace follow Python's
ASCII behaviour, which covers all pattern and detail texts considered here.
-/

set_option maxHeartbeats 1000000

/-! ### ASCII character helpers (model of Python `str.lower` / `str.upper` / `\s`) -/

/-- The ASCII whitespace characters recognised by Python's `str.strip` and
by the regex class `\s` (restricted to ASCII). -/
def isWsChar (c : Char) : Bool :=
  c = ' ' || c = '\t' || c = '\n' || c = '\r' || c = '\x0b' || c = '\x0c'

/-- The 26 ASCII letter pairs, uppercase first. -/
def asciiPairs : List (Char × Char) :=
  [('A', 'a'), ('B', 'b'), ('C', 'c'), ('D', 'd'), ('E', 'e'), ('F', 'f'),
   ('G', 'g'), ('H', 'h'), ('I', 'i'), ('J', 'j'), ('K', 'k'), ('L', 'l'),
   ('M', 'm'), ('N', 'n'), ('O', 'o'), ('P', 'p'), ('Q', 'q'), ('R', 'r'),
   ('S', 's'), ('T', 't'), ('U', 'u'), ('V', 'v'), ('W', 'w'), ('X', 'x'),
   ('Y', 'y'), ('Z', 'z')]

/-- ASCII lower-casing of one character (model of Python `str.lower`). -/
def lowerChar (c : Char) : Char :=
  ((asciiPairs.find? (fun p => p.1 = c)).map Prod.snd).getD c

/-- ASCII upper-casing of one character (model of Python `str.upper`). -/
def upperChar (c : Char) : Char :=
  ((asciiPairs.find? (fun p => p.2 = c)).map Prod.fst).getD c

/-- Lower-case a whole string. -/
def lowerStr (s : String) : String := ⟨s.data.map lowerChar⟩

/-- Upper-case a whole string. -/
def upperStr (s : String) : String := ⟨s.data.map upperChar⟩

/-- Remove leading and trailing ASCII whitespace (model of Python `str.strip`). -/
def stripList (l : List Char) : List Char :=
  ((l.dropWhile isWsChar).reverse.dropWhile isWsChar).reverse

/-- Python `str.strip` on strings. -/
def stripStr (s : String) : String := ⟨stripList s.data⟩

/-! ### Substring containment (model of Python's `in` / pandas non-regex `contains`) -/

/-- Here `leadsWith pat txt` holds when `pat` is an initial segment of `txt`. -/
def leadsWith : List Char → List Char → Bool
  | [], _ => true
  | _ :: _, [] => false
  | a :: as, b :: bs => a = b && leadsWith as bs

/-- Here `substrOf pat txt` holds when `pat` occurs contiguously inside `txt`
(Python's `pat in txt`). -/
def substrOf : List Char → List Char → Bool
  | pat, [] => pat.isEmpty
  | pat, c :: cs => leadsWith pat (c :: cs) || substrOf pat cs

/-- Case-insensitive substring containment, the semantics of
`Series.str.contains(pat, case=False, regex=False)` (pandas case-folds both
sides before testing membership). -/
def strContainsCI (hay pat : String) : Bool :=
  substrOf (lowerStr pat).data (lowerStr hay).data

/-! ### A model of Python `re` on the subset used by the engine

Patterns are compiled to a list of pieces, each a literal or `.` atom,
optionally starred; a leading `^` anchors the search at the start of the
text.  Matching is always performed with `re.IGNORECASE`, because
`apply_rules_vectorized` passes `case=False` to `Series.str.contains`. -/

inductive RAtom where
  | lit (c : Char)
  | dot
deriving DecidableEq, Repr

inductive RPiece where
  | once (a : RAtom)
  | star (a : RAtom)
deriving DecidableEq, Repr

structure CompiledRegex where
  anchored : Bool
  pieces : List RPiece
deriving DecidableEq, Repr

/-- Metacharacters outside the modelled subset.  Python accepts some of these
in well-formed combinations; the model conservatively rejects them, and no
pattern considered in this development uses them. -/
def regexUnmodelled : List Char :=
  ['(', ')', '[', ']', '{', '}', '\\', '|', '$', '^', '+', '?']

/-- Parse the body of a pattern into pieces.  A quantifier with nothing to
its left is a compile error, exactly as in Python `re`. -/
def parsePieces : List Char → Except String (List RPiece)
  | [] => .ok []
  | '*' :: _ => .error "nothing to repeat"
  | c :: '*' :: cs2 =>
    if c ∈ regexUnmodelled then .error "metacharacter outside the modelled subset"
    else
      (parsePieces cs2).map
        (fun ps => RPiece.star (if c = '.' then RAtom.dot else RAtom.lit c) :: ps)
  | c :: cs =>
    if c ∈ regexUnmodelled then .error "metacharacter outside the modelled subset"
    else
      (parsePieces cs).map
        (fun ps => RPiece.once (if c = '.' then RAtom.dot else RAtom.lit c) :: ps)

/-- Compile a pattern string (model of `re.compile`). -/
def parseRegex (p : String) : Except String CompiledRegex :=
  match p.data with
  | '^' :: rest => (parsePieces rest).map (fun ps => ⟨true, ps⟩)
  | l => (parsePieces l).map (fun ps => ⟨false, ps⟩)

/-- One atom against one character, case-insensitively; `.` matches any
character except a newline. -/
def atomMatchCI : RAtom → Char → Bool
  | .dot, c => c ≠ '\n'
  | .lit a, c => lowerChar a = lowerChar c

/-- Whether a piece list can match the empty text: only stars may remain. -/
def mpNil : List RPiece → Bool
  | [] => true
  | .once _ :: _ => false
  | .star _ :: ps => mpNil ps

/-- One step of matching against a text headed by `c`, where `g` decides the
match of any piece list against the tail of the text.  A starred atom either
matches zero occurrences here (drop the star) or consumes `c` and stays. -/
def mpStep (c : Char) (g : List RPiece → Bool) : List RPiece → Bool
  | [] => true
  | .once a :: ps => atomMatchCI a c && g ps
  | .star a :: ps => mpStep c g ps || (atomMatchCI a c && g (.star a :: ps))

/-- Match a piece list against some initial segment of the text (recursion on
the text, so that the function evaluates by kernel reduction). -/
def mpAll : List Char → List RPiece → Bool
  | [], ps => mpNil ps
  | c :: cs, ps => mpStep c (fun ps2 => mpAll cs ps2) ps

/-- Match a piece list against some initial segment of the text. -/
def matchPieces (ps : List RPiece) (cs : List Char) : Bool := mpAll cs ps

/-- Try to match at every start position (the unanchored `re.search`). -/
def searchPos (ps : List RPiece) : List Char → Bool
  | [] => matchPieces ps []
  | c :: cs => matchPieces ps (c :: cs) || searchPos ps cs

/-- Model of `re.search` of a compiled pattern in a string. -/
def regexSearch (r : CompiledRegex) (s : String) : Bool :=
  if r.anchored then matchPieces r.pieces s.data else searchPos r.pieces s.data

instance {ε α : Type} [DecidableEq ε] [DecidableEq α] : DecidableEq (Except ε α) :=
  fun x y =>
    match x, y with
    | .ok a, .ok b =>
      if h : a = b then isTrue (by rw [h])
      else isFalse (fun hc => h (Except.ok.inj hc))
    | .error a, .error b =>
      if h : a = b then isTrue (by rw [h])
      else isFalse (fun hc => h (Except.error.inj hc))
    | .ok _, .error _ => isFalse (fun hc => Except.noConfusion hc)
    | .error _, .ok _ => isFalse (fun hc => Except.noConfusion hc)

/-! ### Rule model and classification engine (`categorization.py`) -/

/-- The dataclass `CategoryRule` from `categorization.py`: one category's name, priority,
patterns and per-pattern regex flags. -/
structure CategoryRule where
  name : String
  priority : Int
  patterns : List String
  is_regex_flags : List Bool
deriving DecidableEq, Repr

/-- One row of the transaction batch, restricted to the two columns the
engine reads and writes. -/
structure Txn where
  details : String
  category : String
deriving DecidableEq, Repr

/-- One pattern of a rule against one (already lower-cased) details text:
regex search for `is_regex=True`, case-insensitive substring containment
otherwise.  A pattern that fails to compile contributes `false`; this value
is only consulted where compilation is known to succeed. -/
def patternMatchesRow (d : String) (p : String) (isRegex : Bool) : Bool :=
  if isRegex then
    match parseRegex p with
    | .ok r => regexSearch r d
    | .error _ => false
  else strContainsCI d p

/-- The boolean column produced by one `str.contains` call of
`apply_rules_vectorized`: the regex is compiled once, so a malformed pattern
raises before any row is examined. -/
def patternMask (dn : List String) (p : String) (isRegex : Bool) :
    Except String (List Bool) :=
  if isRegex then
    match parseRegex p with
    | .error e => .error e
    | .ok r => .ok (dn.map (fun d => regexSearch r d))
  else .ok (dn.map (fun d => strContainsCI d p))

/-- The inner pattern loop of `apply_rules_vectorized`: starting from the
all-`False` series, OR in the mask of every non-empty pattern; empty
patterns are skipped (`if not pattern: continue`). -/
def ruleMask (dn : List String) : List (String × Bool) → List Bool →
    Except String (List Bool)
  | [], acc => .ok acc
  | (p, b) :: rest, acc =>
    if p = "" then ruleMask dn rest acc
    else
      match patternMask dn p b with
      | .error e => .error e
      | .ok m => ruleMask dn rest (List.zipWith (· || ·) acc m)

/-- The assignment `df.loc[uncategorized_mask & category_mask, "Category"] = rule.name`. -/
def applyRuleAssign (name : String) (txns : List Txn) (mask : List Bool) :
    List Txn :=
  List.zipWith
    (fun t m => if m && (t.category = "Uncategorized") then
        { t with category := name }
      else t)
    txns mask

/-- The outer rule loop of `apply_rules_vectorized`, including the early
`break` once no transaction is left `"Uncategorized"`. -/
def applyRulesLoop (dn : List String) (txns : List Txn) :
    List CategoryRule → Except String (List Txn)
  | [] => .ok txns
  | r :: rest =>
    if txns.any (fun t => t.category = "Uncategorized") then
      match ruleMask dn (r.patterns.zip r.is_regex_flags)
          (List.replicate txns.length false) with
      | .error e => .error e
      | .ok mask => applyRulesLoop dn (applyRuleAssign r.name txns mask) rest
    else .ok txns

/-- The function `apply_rules_vectorized` from `categorization.py`, on a batch that
already carries a `Category` column: normalise the details to lower case
once, then run the rules in order. -/
def apply_rules_vectorized (txns : List Txn) (rules : List CategoryRule) :
    Except String (List Txn) :=
  applyRulesLoop (txns.map (fun t => lowerStr t.details)) txns rules

/-- The `"Category" not in df.columns` branch of `apply_rules_vectorized`:
a batch without a category column starts with every row `"Uncategorized"`. -/
def withDefaultCategory (details : List String) : List Txn :=
  details.map (fun d => ⟨d, "Uncategorized"⟩)

/-- One rule of a rule list against one lower-cased details text: some
non-empty pattern matches (malformed regex patterns count as matching
nothing, which agrees with the engine wherever it returns normally). -/
def ruleMatchesRow (d : String) (r : CategoryRule) : Bool :=
  (r.patterns.zip r.is_regex_flags).any
    (fun pb => pb.1 ≠ "" && patternMatchesRow d pb.1 pb.2)

/-- The category that first-match-wins classification predicts for one
lower-cased details text. -/
def firstRuleName (d : String) (rules : List CategoryRule) : String :=
  match rules.find? (fun r => ruleMatchesRow d r) with
  | some r => r.name
  | none => "Uncategorized"

/-! ### Stored categories and rule compilation (`storage.py`, `categorization.py`) -/

/-- One row of the `keywords` table, as surfaced by
`get_categories_with_keywords` (the keyword id only fixes the order of the
list, so it is left implicit in the list position). -/
structure StoredKeyword where
  pattern : String
  is_regex : Bool
  enabled : Bool
deriving DecidableEq, Repr

/-- One category of the snapshot returned by `get_categories_with_keywords`,
keywords in ascending-id (insertion) order. -/
structure StoredCategory where
  id : Nat
  name : String
  priority : Int
  keywords : List StoredKeyword
deriving DecidableEq, Repr

/-- The list `[k for k in cat["keywords"] if k["enabled"]]`. -/
def enabledKeywords (c : StoredCategory) : List StoredKeyword :=
  c.keywords.filter (fun k => k.enabled)

/-- The rule built from one surviving category. -/
def ruleOfCategory (c : StoredCategory) : CategoryRule :=
  { name := c.name, priority := c.priority,
    patterns := (enabledKeywords c).map (fun k => k.pattern),
    is_regex_flags := (enabledKeywords c).map (fun k => k.is_regex) }

/-- A category contributes a rule when it is not `"Uncategorized"` and has at
least one enabled keyword. -/
def categorySurvives (c : StoredCategory) : Bool :=
  c.name ≠ "Uncategorized" && !(enabledKeywords c).isEmpty

/-- The function `build_rules_from_storage` from `categorization.py`, as a function of the
database snapshot: keep surviving categories, one rule each, then
`rules.sort(key=lambda r: r.priority)` (Python's sort is stable and
ascending, as is `List.insertionSort` with `≤`). -/
def build_rules_from_storage (categories : List StoredCategory) :
    List CategoryRule :=
  List.insertionSort (fun a b => a.priority ≤ b.priority)
    (categories.filterMap
      (fun c => if categorySurvives c then some (ruleOfCategory c) else none))

/-- The function `get_category_id_by_name` from `storage.py`: strip the name, reject the
empty result, otherwise the id of the (unique) category with that name. -/
def get_category_id_by_name (db : List StoredCategory) (name : String) :
    Option Nat :=
  let cleaned := stripStr name
  if cleaned = "" then none
  else (db.find? (fun c => c.name = cleaned)).map (fun c => c.id)

/-- The function `add_keyword` from `storage.py`, acting on the snapshot: strip the
pattern, refuse empty text, otherwise append one enabled keyword row to the
category with the given id. -/
def add_keyword (db : List StoredCategory) (category_id : Nat)
    (pattern : String) (is_regex : Bool) : List StoredCategory :=
  let cleaned := stripStr pattern
  if cleaned = "" then db
  else
    db.map (fun c =>
      if c.id = category_id then
        { c with keywords := c.keywords ++ [⟨cleaned, is_regex, true⟩] }
      else c)

/-! ### Keyword extraction (`utils.py`) -/

/-- The test `re.fullmatch(r"\d+(\.\d+)?", t)`: digits, optionally one decimal point
followed by digits. -/
def isNumericToken (t : List Char) : Bool :=
  let sp := t.span Char.isDigit
  !sp.1.isEmpty &&
    (match sp.2 with
     | [] => true
     | '.' :: rest2 => !rest2.isEmpty && rest2.all Char.isDigit
     | _ => false)

/-- Accumulating tokenizer: `acc` holds the reversed current token.  A
whitespace character closes the current token (if any); the end of the text
closes the last one. -/
def tokensAux : List Char → List Char → List (List Char)
  | [], acc => if acc.isEmpty then [] else [acc.reverse]
  | c :: cs, acc =>
    if isWsChar c then
      if acc.isEmpty then tokensAux cs [] else acc.reverse :: tokensAux cs []
    else tokensAux cs (c :: acc)

/-- The maximal whitespace-free runs of a character list. -/
def tokensOf (l : List Char) : List (List Char) := tokensAux l []

/-- Python `max(candidates, key=len)`: Python `max` returns the first element of
maximal length, so the accumulator is only replaced on a strictly longer
token. -/
def pickLongest (c : List Char) (cs : List (List Char)) : List Char :=
  cs.foldl (fun b t => if b.length < t.length then t else b) c

/-- The function `extract_keyword_from_details` from `utils.py`: split the stripped text
on whitespace runs (`re.split` on an all-whitespace string yields one empty
token), keep tokens of length at least 3 that are not purely numeric, and
return the first longest candidate upper-cased, or `None`. -/
def extract_keyword_from_details (details : String) : Option String :=
  if details = "" then none
  else
    let stripped := stripList details.data
    let tokens := if stripped.isEmpty then [([] : List Char)] else tokensOf stripped
    let candidates := tokens.filter (fun t => 3 ≤ t.length && !isNumericToken t)
    match candidates with
    | [] => none
    | c :: cs => some ⟨(pickLongest c cs).map upperChar⟩

/-- The function `normalize_text` from `utils.py`: strip, then lower-case. -/
def normalize_text (text : String) : String := lowerStr (stripStr text)

/-! ### The learning feedback loop (`app.py`, lines 315-334) -/

/-- The body of the per-changed-row loop behind the "apply changes and learn
new keywords" button: rows with an unchanged category are filtered out
beforehand (`merged[merged["Category"] != merged["NewCategory"]]`); for a
changed row, extract a keyword from the details, resolve the new category
name, and persist one enabled non-regex keyword — silently skipping the row
when extraction yields nothing or the name does not resolve. -/
def learn_from_edit (db : List StoredCategory) (details oldCat newCat : String) :
    List StoredCategory :=
  if oldCat = newCat then db
  else
    match extract_keyword_from_details details with
    | none => db
    | some kw =>
      match get_category_id_by_name db newCat with
      | none => db
      | some cid => add_keyword db cid kw false

/-! ### Optional fuzzy fallback (`categorization.py`) -/

/-- Model of `rapidfuzz.process.extractOne`: the best-scoring candidate under the
given scorer, earlier candidates winning ties.  Scores are modelled as
naturals, since only their order is consulted. -/
def bestPair (scorer : String → String → Nat) (text : String)
    (acc : String × Nat) (cs : List String) : String × Nat :=
  cs.foldl
    (fun best cand =>
      let s := scorer text cand
      if best.2 < s then (cand, s) else best)
    acc

def extractOne (scorer : String → String → Nat) (text : String) :
    List String → Option (String × Nat)
  | [] => none
  | c :: cs => some (bestPair scorer text (c, scorer text c) cs)

/-- The function `fuzzy_categorize_single_details` from `categorization.py`.  The
availability of the `rapidfuzz` import and the scorer it would supply are
parameters of the model, and `threshold` is explicit here (its Python
default value is 80). -/
def fuzzy_categorize_single_details (hasRapidfuzz : Bool)
    (scorer : String → String → Nat) (details : String)
    (candidate_categories : List String) (threshold : Nat) :
    Option String :=
  if !hasRapidfuzz then none
  else
    let text := normalize_text details
    if text = "" || candidate_categories.isEmpty then none
    else
      match extractOne scorer text candidate_categories with
      | none => none
      | some bs => if threshold ≤ bs.2 then some bs.1 else none

/-- A total lexicographic comparison of character lists, used to model the
token sorting step of `rapidfuzz.fuzz.token_sort_ratio`. -/
def lexLe : List Char → List Char → Bool
  | [], _ => true
  | _ :: _, [] => false
  | a :: as, b :: bs => a.toNat < b.toNat || (a = b && lexLe as bs)

/-- Join tokens with single spaces. -/
def joinSpace : List (List Char) → List Char
  | [] => []
  | [t] => t
  | t :: ts => t ++ ' ' :: joinSpace ts

/-- Sort the whitespace tokens of a string and join them with spaces: the
canonicalisation performed by `fuzz.token_sort_ratio` before scoring. -/
def sortTokensJoin (s : String) : String :=
  ⟨joinSpace (List.insertionSort (fun a b => lexLe a b = true) (tokensOf s.data))⟩

/-- Model of `fuzz.token_sort_ratio` with the underlying similarity ratio abstracted:
both sides are token-sorted before the ratio is taken, which is what makes
the score insensitive to token order. -/
def scoreTokenSort (ratioFn : String → String → Nat) (a b : String) : Nat :=
  ratioFn (sortTokensJoin a) (sortTokensJoin b)

/-! ### Helper lemmas about strings, substrings and search -/

theorem stringDataExt {s t : String} (h : s.data = t.data) : s = t := by
  cases s; cases t; exact congrArg String.mk h

theorem leadsWith_iff (pat : List Char) :
    ∀ txt, leadsWith pat txt = true ↔ ∃ r, txt = pat ++ r := by
  induction pat with
  | nil => intro txt; simp [leadsWith]
  | cons a as ih =>
    intro txt
    cases txt with
    | nil =>
      simp only [leadsWith, List.cons_append]
      constructor
      · intro h; cases h
      · rintro ⟨r, hr⟩; cases hr
    | cons b bs =>
      simp only [leadsWith, Bool.and_eq_true, decide_eq_true_eq, ih bs,
        List.cons_append, List.cons.injEq]
      constructor
      · rintro ⟨hab, r, hr⟩; exact ⟨r, hab.symm, hr⟩
      · rintro ⟨r, hba, hr⟩; exact ⟨hba.symm, r, hr⟩

theorem substrOf_iff (pat : List Char) :
    ∀ txt, substrOf pat txt = true ↔ ∃ l r, txt = l ++ pat ++ r := by
  intro txt
  induction txt with
  | nil =>
    simp only [substrOf, List.isEmpty_iff]
    constructor
    · intro h; exact ⟨[], [], by simp [h]⟩
    · rintro ⟨l, r, hr⟩
      rcases List.append_eq_nil.mp (List.append_eq_nil.mp hr.symm).1 with ⟨-, h2⟩
      exact h2
  | cons c cs ih =>
    simp only [substrOf, Bool.or_eq_true, leadsWith_iff, ih]
    constructor
    · rintro (⟨r, hr⟩ | ⟨l, r, hr⟩)
      · exact ⟨[], r, by simp [hr]⟩
      · exact ⟨c :: l, r, by simp [hr]⟩
    · rintro ⟨l, r, hr⟩
      cases l with
      | nil => exact Or.inl ⟨r, by simpa using hr⟩
      | cons x l2 =>
        rcases List.cons.inj hr with ⟨-, h2⟩
        exact Or.inr ⟨l2, r, h2⟩

theorem searchPos_iff (ps : List RPiece) :
    ∀ txt, searchPos ps txt = true ↔ ∃ n, matchPieces ps (txt.drop n) = true := by
  intro txt
  induction txt with
  | nil =>
    simp only [searchPos]
    constructor
    · intro h; exact ⟨0, h⟩
    · rintro ⟨n, h⟩; simpa [List.drop_nil] using h
  | cons c cs ih =>
    simp only [searchPos, Bool.or_eq_true, ih]
    constructor
    · rintro (h | ⟨n, h⟩)
      · exact ⟨0, h⟩
      · exact ⟨n + 1, h⟩
    · rintro ⟨n, h⟩
      cases n with
      | zero => exact Or.inl h
      | succ n => exact Or.inr ⟨n, h⟩

/-! ### Helper lemmas about the masks of `apply_rules_vectorized` -/

theorem patternMask_ok_spec {dn : List String} {p : String} {b : Bool}
    {m : List Bool} (h : patternMask dn p b = .ok m) :
    m.length = dn.length ∧
      ∀ i (hi : i < dn.length) (hm : i < m.length),
        m[i] = patternMatchesRow dn[i] p b := by
  cases b with
  | false =>
    simp only [patternMask, Bool.false_eq_true, if_false, Except.ok.injEq] at h
    subst h
    exact ⟨List.length_map .., fun i hi hm => by
      simp [List.getElem_map, patternMatchesRow]⟩
  | true =>
    simp only [patternMask, if_true] at h
    rcases hp : parseRegex p with e | r <;> rw [hp] at h
    · cases h
    · simp only [Except.ok.injEq] at h
      subst h
      exact ⟨List.length_map .., fun i hi hm => by
        simp [List.getElem_map, patternMatchesRow, hp]⟩

theorem patternMask_error_of {dn : List String} {p : String}
    (hp : ∃ e, parseRegex p = .error e) :
    ∃ e, patternMask dn p true = .error e := by
  rcases hp with ⟨e, hp⟩
  exact ⟨e, by simp [patternMask, hp]⟩

theorem ruleMask_ok_spec (dn : List String) :
    ∀ (pats : List (String × Bool)) (acc mask : List Bool),
      acc.length = dn.length →
      ruleMask dn pats acc = .ok mask →
      mask.length = dn.length ∧
        ∀ i (hi : i < dn.length) (ha : i < acc.length) (hm : i < mask.length),
          mask[i] = (acc[i] ||
            pats.any (fun pb => pb.1 ≠ "" && patternMatchesRow dn[i] pb.1 pb.2)) := by
  intro pats
  induction pats with
  | nil =>
    intro acc mask hlen h
    simp only [ruleMask, Except.ok.injEq] at h
    subst h
    exact ⟨hlen, fun i hi ha hm => by simp⟩
  | cons pb rest ih =>
    intro acc mask hlen h
    rcases pb with ⟨p, b⟩
    by_cases hp : p = ""
    · rw [ruleMask, if_pos hp] at h
      rcases ih acc mask hlen h with ⟨h1, h2⟩
      refine ⟨h1, fun i hi ha hm => ?_⟩
      simp [h2 i hi ha hm, hp]
    · rw [ruleMask, if_neg hp] at h
      rcases hpm : patternMask dn p b with e | m2 <;> rw [hpm] at h
      · cases h
      · rcases patternMask_ok_spec hpm with ⟨hm2len, hm2get⟩
        have hzlen : (List.zipWith (· || ·) acc m2).length = dn.length := by
          rw [List.length_zipWith, hlen, hm2len]; omega
        rcases ih _ mask hzlen h with ⟨h1, h2⟩
        refine ⟨h1, fun i hi ha hm => ?_⟩
        have hz : i < (List.zipWith (· || ·) acc m2).length := by omega
        have := h2 i hi hz hm
        rw [this, List.getElem_zipWith, hm2get i hi (by omega)]
        simp [hp, Bool.or_assoc]

theorem ruleMask_error_of (dn : List String) :
    ∀ (pats : List (String × Bool)) (acc : List Bool),
      (∃ pb ∈ pats, pb.1 ≠ "" ∧ pb.2 = true ∧ ∃ e, parseRegex pb.1 = .error e) →
      ∃ e2, ruleMask dn pats acc = .error e2 := by
  intro pats
  induction pats with
  | nil => rintro acc ⟨pb, hmem, -⟩; cases hmem
  | cons pb0 rest ih =>
    rintro acc ⟨pb, hmem, hne, hreg, he⟩
    rcases pb0 with ⟨p, b⟩
    by_cases hp : p = ""
    · rw [ruleMask, if_pos hp]
      rcases List.mem_cons.mp hmem with heq | hmem2
      · exact absurd (by simp [heq, hp]) hne
      · exact ih _ ⟨pb, hmem2, hne, hreg, he⟩
    · rw [ruleMask, if_neg hp]
      rcases hpm : patternMask dn p b with e | m2
      · exact ⟨e, rfl⟩
      · rcases List.mem_cons.mp hmem with heq | hmem2
        · exfalso
          have hb : b = true := by rw [heq] at hreg; exact hreg
          have : ∃ e, patternMask dn p true = .error e :=
            patternMask_error_of (by rw [heq] at he; exact he)
          rcases this with ⟨e, h3⟩
          rw [hb] at hpm
          rw [h3] at hpm
          cases hpm
        · exact ih _ ⟨pb, hmem2, hne, hreg, he⟩

/-! ### Helper lemmas about the rule loop -/

theorem applyRuleAssign_length (name : String) (txns : List Txn)
    (mask : List Bool) :
    (applyRuleAssign name txns mask).length = min txns.length mask.length :=
  List.length_zipWith ..

theorem applyRuleAssign_getElem {name : String} {txns : List Txn}
    {mask : List Bool} {i : Nat} (hi : i < txns.length) (hm : i < mask.length)
    (h : i < (applyRuleAssign name txns mask).length) :
    (applyRuleAssign name txns mask)[i] =
      (if mask[i] && (txns[i].category = "Uncategorized") then
        { txns[i] with category := name }
      else txns[i]) :=
  List.getElem_zipWith

theorem applyRuleAssign_false (name : String) :
    ∀ txns : List Txn,
      applyRuleAssign name txns (List.replicate txns.length false) = txns := by
  intro txns
  induction txns with
  | nil => rfl
  | cons t ts ih =>
    simp only [List.length_cons, List.replicate, applyRuleAssign,
      List.zipWith_cons_cons, Bool.false_and, if_false]
    exact congrArg (t :: ·) ih

theorem applyRulesLoop_done {dn : List String} {txns : List Txn}
    (h : txns.any (fun t => t.category = "Uncategorized") = false) :
    ∀ rules : List CategoryRule, applyRulesLoop dn txns rules = .ok txns := by
  intro rules
  cases rules with
  | nil => rfl
  | cons r rest => rw [applyRulesLoop, if_neg (by simp [h])]

theorem applyRulesLoop_basic (dn : List String) :
    ∀ (rules : List CategoryRule) (txns out : List Txn),
      dn.length = txns.length →
      applyRulesLoop dn txns rules = .ok out →
      out.length = txns.length ∧
        ∀ i (hi : i < txns.length) (ho : i < out.length) (hd : i < dn.length),
          (txns[i].category ≠ "Uncategorized" →
            out[i].category = txns[i].category) ∧
          ((txns[i].category = "Uncategorized" ∧
              ∀ r ∈ rules, ruleMatchesRow dn[i] r = false) →
            out[i].category = "Uncategorized") ∧
          (out[i].category = txns[i].category ∨
            ∃ r ∈ rules, out[i].category = r.name) := by
  intro rules
  induction rules with
  | nil =>
    intro txns out hlen h
    simp only [applyRulesLoop, Except.ok.injEq] at h
    subst h
    refine ⟨rfl, fun i hi ho hd => ⟨fun _ => rfl, fun _ => ?_, Or.inl rfl⟩⟩
    · rename_i hu
      exact hu.1
  | cons r rest ih =>
    intro txns out hlen h
    rw [applyRulesLoop] at h
    by_cases hany : txns.any (fun t => t.category = "Uncategorized") = true
    · rw [if_pos (by simp [hany])] at h
      rcases hmask : ruleMask dn (r.patterns.zip r.is_regex_flags)
          (List.replicate txns.length false) with e | mask <;> rw [hmask] at h
      · cases h
      · have hrep : (List.replicate txns.length false).length = dn.length := by
          simp [hlen]
        rcases ruleMask_ok_spec dn _ _ mask hrep hmask with ⟨hmlen, hmget⟩
        have htlen : (applyRuleAssign r.name txns mask).length = txns.length := by
          rw [applyRuleAssign_length]
          omega
        have hlen2 : dn.length = (applyRuleAssign r.name txns mask).length := by
          omega
        rcases ih _ out hlen2 h with ⟨holen, hper⟩
        refine ⟨by omega, fun i hi ho hd => ?_⟩
        have hm : i < mask.length := by omega
        have ha : i < (applyRuleAssign r.name txns mask).length := by omega
        have hrepi : i < (List.replicate txns.length false).length := by simp; omega
        have hgm : mask[i] = ruleMatchesRow dn[i] r := by
          rw [hmget i hd hrepi hm, List.getElem_replicate, Bool.false_or]
          rfl
        have hassign := applyRuleAssign_getElem hi hm ha
        rcases hper i ha ho hd with ⟨h1, h2, h3⟩
        by_cases hcond : (mask[i] && (txns[i].category = "Uncategorized")) = true
        · have hnew : (applyRuleAssign r.name txns mask)[i].category = r.name := by
            rw [hassign, if_pos hcond]
        -- the transaction was (re)assigned to `r.name` in this step
          refine ⟨fun hne => ?_, fun hno => ?_, ?_⟩
          · exfalso
            rcases Bool.and_eq_true_iff.mp hcond with ⟨-, hu⟩
            exact hne (by simpa using hu)
          · exfalso
            rcases Bool.and_eq_true_iff.mp hcond with ⟨hmi, -⟩
            have := hno.2 r (List.mem_cons_self r rest)
            rw [hgm] at hmi
            rw [this] at hmi
            cases hmi
          · rcases h3 with h3 | ⟨r2, hr2, h3⟩
            · exact Or.inr ⟨r, List.mem_cons_self r rest, by rw [h3, hnew]⟩
            · exact Or.inr ⟨r2, List.mem_cons_of_mem r hr2, h3⟩
        · have hkeep : (applyRuleAssign r.name txns mask)[i] = txns[i] := by
            rw [hassign, if_neg hcond]
          refine ⟨fun hne => ?_, fun hno => ?_, ?_⟩
          · rw [h1 (by rw [hkeep]; exact hne), hkeep]
          · rw [h2 ⟨by rw [hkeep]; exact hno.1,
              fun r2 hr2 => hno.2 r2 (List.mem_cons_of_mem r hr2)⟩]
          · rcases h3 with h3 | ⟨r2, hr2, h3⟩
            · exact Or.inl (by rw [h3, hkeep])
            · exact Or.inr ⟨r2, List.mem_cons_of_mem r hr2, h3⟩
    · rw [if_neg (by simpa using hany)] at h
      cases h
      refine ⟨rfl, fun i hi ho hd => ⟨fun _ => rfl, fun _ => ?_, Or.inl rfl⟩⟩
      rename_i hu
      exact hu.1

theorem applyRulesLoop_first (dn : List String) :
    ∀ (rules : List CategoryRule) (txns out : List Txn),
      dn.length = txns.length →
      (∀ r ∈ rules, r.name ≠ "Uncategorized") →
      applyRulesLoop dn txns rules = .ok out →
      ∀ i (hi : i < txns.length) (ho : i < out.length) (hd : i < dn.length),
        out[i].category =
          if txns[i].category = "Uncategorized" then firstRuleName dn[i] rules
          else txns[i].category := by
  intro rules
  induction rules with
  | nil =>
    intro txns out hlen hname h
    simp only [applyRulesLoop, Except.ok.injEq] at h
    subst h
    intro i hi ho hd
    by_cases hu : txns[i].category = "Uncategorized"
    · rw [if_pos hu, firstRuleName, List.find?_nil, hu]
    · rw [if_neg hu]
  | cons r rest ih =>
    intro txns out hlen hname h
    rw [applyRulesLoop] at h
    by_cases hany : txns.any (fun t => t.category = "Uncategorized") = true
    · rw [if_pos (by simp [hany])] at h
      rcases hmask : ruleMask dn (r.patterns.zip r.is_regex_flags)
          (List.replicate txns.length false) with e | mask <;> rw [hmask] at h
      · cases h
      · have hrep : (List.replicate txns.length false).length = dn.length := by
          simp [hlen]
        rcases ruleMask_ok_spec dn _ _ mask hrep hmask with ⟨hmlen, hmget⟩
        have htlen : (applyRuleAssign r.name txns mask).length = txns.length := by
          rw [applyRuleAssign_length]; omega
        have hlen2 : dn.length = (applyRuleAssign r.name txns mask).length := by
          omega
        have hname2 : ∀ r2 ∈ rest, r2.name ≠ "Uncategorized" :=
          fun r2 h2 => hname r2 (List.mem_cons_of_mem r h2)
        have hper := ih _ out hlen2 hname2 h
        intro i hi ho hd
        have hm : i < mask.length := by omega
        have ha : i < (applyRuleAssign r.name txns mask).length := by omega
        have hrepi : i < (List.replicate txns.length false).length := by
          simp; omega
        have hgm : mask[i] = ruleMatchesRow dn[i] r := by
          rw [hmget i hd hrepi hm, List.getElem_replicate, Bool.false_or]
          rfl
        have hassign := applyRuleAssign_getElem hi hm ha
        have hstep := hper i ha ho hd
        by_cases hu : txns[i].category = "Uncategorized"
        · rw [if_pos hu]
          by_cases hmatch : ruleMatchesRow dn[i] r = true
          · have hcond : (mask[i] && (txns[i].category = "Uncategorized")) = true := by
              rw [hgm, hmatch, hu]; simp
            have hnew : (applyRuleAssign r.name txns mask)[i].category = r.name := by
              rw [hassign, if_pos hcond]
            have hne2 : (applyRuleAssign r.name txns mask)[i].category ≠
                "Uncategorized" := by
              rw [hnew]; exact hname r (List.mem_cons_self r rest)
            rw [if_neg hne2] at hstep
            rw [hstep, hnew, firstRuleName, List.find?_cons_of_pos _ hmatch]
          · have hcond : (mask[i] && (txns[i].category = "Uncategorized")) = false := by
              rw [hgm]
              simp only [Bool.and_eq_false_iff]
              exact Or.inl (by simpa using hmatch)
            have hkeep : (applyRuleAssign r.name txns mask)[i] = txns[i] := by
              rw [hassign, hcond]; simp
            rw [hkeep, if_pos hu] at hstep
            rw [hstep, firstRuleName, firstRuleName,
              List.find?_cons_of_neg _ (by simpa using hmatch)]
        · rw [if_neg hu]
          have hcond : (mask[i] && (txns[i].category = "Uncategorized")) = false := by
            simp only [Bool.and_eq_false_iff]
            exact Or.inr (by simpa using hu)
          have hkeep : (applyRuleAssign r.name txns mask)[i] = txns[i] := by
            rw [hassign, hcond]; simp
          rw [hkeep, if_neg hu] at hstep
          exact hstep
    · rw [if_neg (by simpa using hany)] at h
      cases h
      intro i hi ho hd
      have hfalse : txns.any (fun t => t.category = "Uncategorized") = false :=
        Bool.eq_false_iff.mpr hany
      have hall := List.any_eq_false.mp hfalse
      rw [if_neg (by simpa using hall txns[i] (txns.getElem_mem hi))]

theorem applyRulesLoop_error_head (dn : List String) (txns : List Txn)
    (r : CategoryRule) (rest : List CategoryRule)
    (huncat : ∃ t ∈ txns, t.category = "Uncategorized")
    (hbad : ∃ pb ∈ r.patterns.zip r.is_regex_flags,
      pb.1 ≠ "" ∧ pb.2 = true ∧ ∃ e, parseRegex pb.1 = .error e) :
    ∃ e2, applyRulesLoop dn txns (r :: rest) = .error e2 := by
  have hany : txns.any (fun t => t.category = "Uncategorized") = true := by
    rcases huncat with ⟨t, ht, hcat⟩
    exact List.any_eq_true.mpr ⟨t, ht, by simp [hcat]⟩
  rcases ruleMask_error_of dn (r.patterns.zip r.is_regex_flags)
      (List.replicate txns.length false) hbad with ⟨e2, he2⟩
  refine ⟨e2, ?_⟩
  rw [applyRulesLoop, if_pos (by simp [hany]), he2]

theorem ruleMask_all_empty (dn : List String) :
    ∀ (pats : List (String × Bool)) (acc : List Bool),
      (∀ pb ∈ pats, pb.1 = "") → ruleMask dn pats acc = .ok acc := by
  intro pats
  induction pats with
  | nil => intro acc _; rfl
  | cons pb rest ih =>
    intro acc hall
    rcases pb with ⟨p, b⟩
    have hp : p = "" := hall (p, b) (List.mem_cons_self ..)
    rw [ruleMask, if_pos hp]
    exact ih acc (fun pb2 h2 => hall pb2 (List.mem_cons_of_mem _ h2))

theorem applyRulesLoop_skip_empty (dn : List String) (txns : List Txn)
    (r : CategoryRule) (rest : List CategoryRule)
    (hp : ∀ p ∈ r.patterns, p = "") :
    applyRulesLoop dn txns (r :: rest) = applyRulesLoop dn txns rest := by
  by_cases hany : txns.any (fun t => t.category = "Uncategorized") = true
  · rw [applyRulesLoop, if_pos (by simp [hany])]
    rw [ruleMask_all_empty dn _ _
      (fun pb hmem => hp pb.1 (List.of_mem_zip hmem).1)]
    change applyRulesLoop dn
      (applyRuleAssign r.name txns (List.replicate txns.length false)) rest =
      applyRulesLoop dn txns rest
    rw [applyRuleAssign_false]
  · rw [applyRulesLoop, if_neg (by simpa using hany),
      applyRulesLoop_done (by simpa using hany) rest]

/-! ### Top-level wrappers for `apply_rules_vectorized` -/

theorem apply_rules_vectorized_basic {txns out : List Txn}
    {rules : List CategoryRule}
    (h : apply_rules_vectorized txns rules = .ok out) :
    out.length = txns.length ∧
      ∀ i (hi : i < txns.length) (ho : i < out.length),
        (txns[i].category ≠ "Uncategorized" →
          out[i].category = txns[i].category) ∧
        ((txns[i].category = "Uncategorized" ∧
            ∀ r ∈ rules, ruleMatchesRow (lowerStr txns[i].details) r = false) →
          out[i].category = "Uncategorized") ∧
        (out[i].category = txns[i].category ∨
          ∃ r ∈ rules, out[i].category = r.name) := by
  have hlen : (txns.map (fun t => lowerStr t.details)).length = txns.length :=
    List.length_map ..
  rcases applyRulesLoop_basic _ rules txns out hlen h with ⟨h1, h2⟩
  refine ⟨h1, fun i hi ho => ?_⟩
  have hd : i < (txns.map (fun t => lowerStr t.details)).length := by omega
  have := h2 i hi ho hd
  rwa [List.getElem_map] at this

theorem apply_rules_vectorized_first {txns out : List Txn}
    {rules : List CategoryRule}
    (hname : ∀ r ∈ rules, r.name ≠ "Uncategorized")
    (h : apply_rules_vectorized txns rules = .ok out) :
    ∀ i (hi : i < txns.length) (ho : i < out.length),
      out[i].category =
        if txns[i].category = "Uncategorized" then
          firstRuleName (lowerStr txns[i].details) rules
        else txns[i].category := by
  have hlen : (txns.map (fun t => lowerStr t.details)).length = txns.length :=
    List.length_map ..
  have h2 := applyRulesLoop_first _ rules txns out hlen hname h
  intro i hi ho
  have hd : i < (txns.map (fun t => lowerStr t.details)).length := by omega
  have := h2 i hi ho hd
  rwa [List.getElem_map] at this


/-! ### Helper lemmas about stripping and case mapping -/

theorem dropWhile_length_le {α : Type} (p : α → Bool) :
    ∀ l : List α, (l.dropWhile p).length ≤ l.length := by
  intro l
  induction l with
  | nil => simp
  | cons c cs ih =>
    by_cases h : p c
    · rw [List.dropWhile_cons, if_pos h]
      exact Nat.le_succ_of_le ih
    · rw [List.dropWhile_cons, if_neg h]

theorem dropWhile_idem {α : Type} (p : α → Bool) :
    ∀ l : List α, (l.dropWhile p).dropWhile p = l.dropWhile p := by
  intro l
  induction l with
  | nil => simp
  | cons c cs ih =>
    by_cases h : p c
    · rw [List.dropWhile_cons, if_pos h]
      exact ih
    · rw [List.dropWhile_cons, if_neg h, List.dropWhile_cons, if_neg h]

theorem dropWhile_self_of_append {α : Type} (p : α → Bool) (B T : List α)
    (h : (B ++ T).dropWhile p = B ++ T) : B.dropWhile p = B := by
  cases B with
  | nil => simp
  | cons c bs =>
    by_cases hc : p c
    · exfalso
      rw [List.cons_append, List.dropWhile_cons, if_pos hc] at h
      have hle := dropWhile_length_le p (bs ++ T)
      have hlen := congrArg List.length h
      rw [List.length_cons] at hlen
      omega
    · rw [List.dropWhile_cons, if_neg hc]

theorem rev_split_ws (m : List Char) :
    m = (m.reverse.dropWhile isWsChar).reverse ++
      (m.reverse.takeWhile isWsChar).reverse := by
  conv_lhs => rw [← List.reverse_reverse m]
  rw [← List.reverse_append, List.takeWhile_append_dropWhile]

theorem stripList_idem (l : List Char) : stripList (stripList l) = stripList l := by
  have hPA : (l.dropWhile isWsChar).dropWhile isWsChar = l.dropWhile isWsChar :=
    dropWhile_idem isWsChar l
  have hSplit : l.dropWhile isWsChar =
      ((l.dropWhile isWsChar).reverse.dropWhile isWsChar).reverse ++
        ((l.dropWhile isWsChar).reverse.takeWhile isWsChar).reverse :=
    rev_split_ws (l.dropWhile isWsChar)
  have hPB : (((l.dropWhile isWsChar).reverse.dropWhile isWsChar).reverse).dropWhile
        isWsChar
      = ((l.dropWhile isWsChar).reverse.dropWhile isWsChar).reverse :=
    dropWhile_self_of_append isWsChar _ _ (by rw [← hSplit]; exact hPA)
  have hRB : ((((l.dropWhile isWsChar).reverse.dropWhile isWsChar).reverse).reverse).dropWhile
        isWsChar
      = (((l.dropWhile isWsChar).reverse.dropWhile isWsChar).reverse).reverse := by
    rw [List.reverse_reverse]
    exact dropWhile_idem isWsChar (l.dropWhile isWsChar).reverse
  show ((((stripList l).dropWhile isWsChar).reverse).dropWhile isWsChar).reverse
    = stripList l
  have hs : stripList l = ((l.dropWhile isWsChar).reverse.dropWhile isWsChar).reverse :=
    rfl
  rw [hs, hPB, hRB, List.reverse_reverse]

theorem stripStr_idem (s : String) : stripStr (stripStr s) = stripStr s :=
  stringDataExt (stripList_idem s.data)

theorem dropWhile_eq_self_of_not (l : List Char)
    (h : ∀ c ∈ l, isWsChar c = false) : l.dropWhile isWsChar = l := by
  cases l with
  | nil => simp
  | cons c cs =>
    rw [List.dropWhile_cons, if_neg (by simp [h c (List.mem_cons_self ..)])]

theorem stripList_eq_self_of_not (l : List Char)
    (h : ∀ c ∈ l, isWsChar c = false) : stripList l = l := by
  rw [stripList, dropWhile_eq_self_of_not l h,
    dropWhile_eq_self_of_not l.reverse (fun c hc => h c (List.mem_reverse.mp hc)),
    List.reverse_reverse]

theorem upperChar_not_ws {c : Char} (h : isWsChar c = false) :
    isWsChar (upperChar c) = false := by
  cases hf : asciiPairs.find? (fun p => p.2 = c) with
  | none =>
    rw [upperChar, hf]
    simpa using h
  | some pr =>
    rw [upperChar, hf]
    have hmem : pr ∈ asciiPairs := List.mem_of_find?_eq_some hf
    have hws : ∀ p ∈ asciiPairs, isWsChar p.1 = false := by decide
    simpa using hws pr hmem

/-! ### Helper lemmas about the tokenizer and the longest-candidate fold -/

theorem tokensAux_props :
    ∀ (l acc : List Char), (∀ c ∈ acc, isWsChar c = false) →
      ∀ t ∈ tokensAux l acc, t ≠ [] ∧ ∀ c ∈ t, isWsChar c = false := by
  intro l
  induction l with
  | nil =>
    intro acc hacc t ht
    rw [tokensAux] at ht
    by_cases he : acc.isEmpty
    · rw [if_pos he] at ht
      cases ht
    · rw [if_neg he] at ht
      rcases List.mem_singleton.mp ht with rfl
      refine ⟨?_, fun c hc => hacc c (List.mem_reverse.mp hc)⟩
      intro hnil
      exact he (by simp [List.isEmpty_iff, ← List.reverse_eq_nil_iff, hnil])
  | cons c cs ih =>
    intro acc hacc t ht
    rw [tokensAux] at ht
    by_cases hws : isWsChar c
    · rw [if_pos hws] at ht
      by_cases he : acc.isEmpty
      · rw [if_pos he] at ht
        exact ih [] (by simp) t ht
      · rw [if_neg he] at ht
        rcases List.mem_cons.mp ht with rfl | ht2
        · refine ⟨?_, fun c2 hc2 => hacc c2 (List.mem_reverse.mp hc2)⟩
          intro hnil
          exact he (by simp [List.isEmpty_iff, ← List.reverse_eq_nil_iff, hnil])
        · exact ih [] (by simp) t ht2
    · rw [if_neg hws] at ht
      refine ih (c :: acc) ?_ t ht
      intro c2 hc2
      rcases List.mem_cons.mp hc2 with rfl | hc3
      · simpa using hws
      · exact hacc c2 hc3

theorem pickLongest_cons (acc t : List Char) (ts : List (List Char)) :
    pickLongest acc (t :: ts) =
      if acc.length < t.length then pickLongest t ts else pickLongest acc ts := by
  by_cases h : acc.length < t.length
  · simp only [pickLongest, List.foldl_cons, if_pos h]
  · simp only [pickLongest, List.foldl_cons, if_neg h]

theorem pickLongest_acc_le :
    ∀ (cs : List (List Char)) (acc : List Char),
      acc.length ≤ (pickLongest acc cs).length := by
  intro cs
  induction cs with
  | nil => intro acc; exact Nat.le_refl _
  | cons t ts ih =>
    intro acc
    rw [pickLongest_cons]
    by_cases h : acc.length < t.length
    · rw [if_pos h]
      exact Nat.le_of_lt (Nat.lt_of_lt_of_le h (ih t))
    · rw [if_neg h]
      exact ih acc

theorem pickLongest_mem :
    ∀ (cs : List (List Char)) (acc : List Char),
      pickLongest acc cs = acc ∨ pickLongest acc cs ∈ cs := by
  intro cs
  induction cs with
  | nil => intro acc; exact Or.inl rfl
  | cons t ts ih =>
    intro acc
    rw [pickLongest_cons]
    by_cases h : acc.length < t.length
    · rw [if_pos h]
      rcases ih t with h2 | h2
      · exact Or.inr (by rw [h2]; exact List.mem_cons_self ..)
      · exact Or.inr (List.mem_cons_of_mem _ h2)
    · rw [if_neg h]
      rcases ih acc with h2 | h2
      · exact Or.inl h2
      · exact Or.inr (List.mem_cons_of_mem _ h2)

theorem pickLongest_ge :
    ∀ (cs : List (List Char)) (acc : List Char),
      ∀ t ∈ cs, t.length ≤ (pickLongest acc cs).length := by
  intro cs
  induction cs with
  | nil => intro acc t ht; cases ht
  | cons u ts ih =>
    intro acc t ht
    rw [pickLongest_cons]
    rcases List.mem_cons.mp ht with rfl | ht2
    · by_cases h : acc.length < t.length
      · rw [if_pos h]
        exact pickLongest_acc_le ts t
      · rw [if_neg h]
        exact Nat.le_trans (Nat.le_of_not_lt h) (pickLongest_acc_le ts acc)
    · by_cases h : acc.length < u.length
      · rw [if_pos h]
        exact ih u t ht2
      · rw [if_neg h]
        exact ih acc t ht2

theorem pickLongest_find :
    ∀ (cs : List (List Char)) (acc : List Char),
      (acc :: cs).find? (fun u => u.length = (pickLongest acc cs).length) =
        some (pickLongest acc cs) := by
  intro cs
  induction cs with
  | nil =>
    intro acc
    rw [pickLongest]
    refine List.find?_cons_of_pos _ ?_
    simp
  | cons t ts ih =>
    intro acc
    rw [pickLongest_cons]
    by_cases h : acc.length < t.length
    · rw [if_pos h]
      have hne : acc.length ≠ (pickLongest t ts).length := by
        have := pickLongest_acc_le ts t
        omega
      rw [List.find?_cons_of_neg _ (by simpa using hne)]
      exact ih t
    · rw [if_neg h]
      have hrec := ih acc
      by_cases hacc : acc.length = (pickLongest acc ts).length
      · have hfirst : (acc :: ts).find?
            (fun u => u.length = (pickLongest acc ts).length) = some acc := by
          refine List.find?_cons_of_pos _ ?_
          simpa using hacc
        rw [hfirst] at hrec
        rw [← Option.some.inj hrec]
        refine List.find?_cons_of_pos _ ?_
        simp
      · rw [List.find?_cons_of_neg _ (by simpa using hacc)] at hrec
        rw [List.find?_cons_of_neg _ (by simpa using hacc)]
        have hlt : acc.length < (pickLongest acc ts).length :=
          Nat.lt_of_le_of_ne (pickLongest_acc_le ts acc) hacc
        have htne : t.length ≠ (pickLongest acc ts).length := by
          have := Nat.le_of_not_lt h
          omega
        rw [List.find?_cons_of_neg _ (by simpa using htne)]
        exact hrec

/-! ### Helper lemmas about keyword extraction -/

/-- The candidate tokens of a details text: whitespace-run tokens of the
stripped text that are at least 3 characters long and not purely numeric. -/
def candidateTokens (s : String) : List (List Char) :=
  (tokensOf (stripList s.data)).filter (fun t => 3 ≤ t.length && !isNumericToken t)

theorem extract_cases (s : String) :
    extract_keyword_from_details s =
      match candidateTokens s with
      | [] => none
      | c :: cs => some ⟨(pickLongest c cs).map upperChar⟩ := by
  rw [extract_keyword_from_details]
  by_cases hs : s = ""
  · rw [if_pos hs]
    subst hs
    rfl
  · rw [if_neg hs]
    by_cases he : (stripList s.data).isEmpty
    · simp only [if_pos he]
      have h2 : stripList s.data = [] := List.isEmpty_iff.mp he
      rw [candidateTokens, h2]
      rfl
    · simp only [if_neg he]
      rfl

theorem extract_some_shape {s : String} {k : String}
    (h : extract_keyword_from_details s = some k) :
    ∃ c cs, candidateTokens s = c :: cs ∧
      k = ⟨(pickLongest c cs).map upperChar⟩ := by
  rw [extract_cases s] at h
  rcases hc : candidateTokens s with - | ⟨c, cs⟩ <;> rw [hc] at h
  · cases h
  · exact ⟨c, cs, rfl, (Option.some.inj h).symm⟩

theorem extract_none_iff (s : String) :
    extract_keyword_from_details s = none ↔ candidateTokens s = [] := by
  rw [extract_cases s]
  rcases hc : candidateTokens s with - | ⟨c, cs⟩
  · simp
  · simp

theorem candidateTokens_facts {s : String} {t : List Char}
    (ht : t ∈ candidateTokens s) :
    3 ≤ t.length ∧ isNumericToken t = false ∧ ∀ c ∈ t, isWsChar c = false := by
  rcases List.mem_filter.mp ht with ⟨htok, hpred⟩
  have hprops := tokensAux_props (stripList s.data) [] (by simp) t htok
  simp only [Bool.and_eq_true, Bool.not_eq_true', decide_eq_true_eq] at hpred
  exact ⟨hpred.1, hpred.2, hprops.2⟩

theorem extract_keyword_clean {s k : String}
    (h : extract_keyword_from_details s = some k) :
    k ≠ "" ∧ stripStr k = k := by
  rcases extract_some_shape h with ⟨c, cs, hc, hk⟩
  have hbest : pickLongest c cs ∈ candidateTokens s := by
    rw [hc]
    rcases pickLongest_mem cs c with h2 | h2
    · rw [h2]; exact List.mem_cons_self ..
    · exact List.mem_cons_of_mem _ h2
  rcases candidateTokens_facts hbest with ⟨hlen, -, hnws⟩
  have hkdata : k.data = (pickLongest c cs).map upperChar := by rw [hk]
  constructor
  · intro heq
    have hnil : k.data = [] := by rw [heq]
    rw [hkdata] at hnil
    have hl2 := congrArg List.length hnil
    rw [List.length_map, List.length_nil] at hl2
    omega
  · refine stringDataExt ?_
    show stripList k.data = k.data
    refine stripList_eq_self_of_not _ ?_
    rw [hkdata]
    intro c2 hc2
    rcases List.mem_map.mp hc2 with ⟨c3, hc3, rfl⟩
    exact upperChar_not_ws (hnws c3 hc3)

/-! ### Helper lemmas about the fuzzy fallback -/

theorem bestPair_cons (scorer : String → String → Nat) (text : String)
    (acc : String × Nat) (c : String) (cs : List String) :
    bestPair scorer text acc (c :: cs) =
      bestPair scorer text
        (if acc.2 < scorer text c then (c, scorer text c) else acc) cs := by
  simp only [bestPair, List.foldl_cons]

theorem bestPair_spec (scorer : String → String → Nat) (text : String) :
    ∀ (cs : List String) (acc : String × Nat), acc.2 = scorer text acc.1 →
      (bestPair scorer text acc cs).2 = scorer text (bestPair scorer text acc cs).1 ∧
      (bestPair scorer text acc cs = acc ∨ (bestPair scorer text acc cs).1 ∈ cs) ∧
      acc.2 ≤ (bestPair scorer text acc cs).2 ∧
      ∀ x ∈ cs, scorer text x ≤ (bestPair scorer text acc cs).2 := by
  intro cs
  induction cs with
  | nil =>
    intro acc hacc
    exact ⟨hacc, Or.inl rfl, Nat.le_refl _, fun x hx => absurd hx (List.not_mem_nil x)⟩
  | cons c cs2 ih =>
    intro acc hacc
    rw [bestPair_cons]
    by_cases hlt : acc.2 < scorer text c
    · rw [if_pos hlt]
      rcases ih (c, scorer text c) rfl with ⟨h1, h2, h3, h4⟩
      refine ⟨h1, ?_, ?_, ?_⟩
      · rcases h2 with h2 | h2
        · exact Or.inr (by rw [h2]; exact List.mem_cons_self ..)
        · exact Or.inr (List.mem_cons_of_mem _ h2)
      · exact Nat.le_trans (Nat.le_of_lt hlt) h3
      · intro x hx
        rcases List.mem_cons.mp hx with rfl | hx2
        · exact h3
        · exact h4 x hx2
    · rw [if_neg hlt]
      rcases ih acc hacc with ⟨h1, h2, h3, h4⟩
      refine ⟨h1, ?_, h3, ?_⟩
      · rcases h2 with h2 | h2
        · exact Or.inl h2
        · exact Or.inr (List.mem_cons_of_mem _ h2)
      · intro x hx
        rcases List.mem_cons.mp hx with rfl | hx2
        · exact Nat.le_trans (Nat.le_of_not_lt hlt) h3
        · exact h4 x hx2

theorem extractOne_spec {scorer : String → String → Nat} {text : String}
    {cands : List String} {bs : String × Nat}
    (h : extractOne scorer text cands = some bs) :
    bs.1 ∈ cands ∧ bs.2 = scorer text bs.1 ∧
      ∀ x ∈ cands, scorer text x ≤ bs.2 := by
  cases cands with
  | nil => cases h
  | cons c cs =>
    rw [extractOne] at h
    have hbs : bs = bestPair scorer text (c, scorer text c) cs :=
      (Option.some.inj h).symm
    rcases bestPair_spec scorer text cs (c, scorer text c) rfl with ⟨h1, h2, h3, h4⟩
    subst hbs
    refine ⟨?_, h1, ?_⟩
    · rcases h2 with h2 | h2
      · rw [h2]; exact List.mem_cons_self ..
      · exact List.mem_cons_of_mem _ h2
    · intro x hx
      rcases List.mem_cons.mp hx with rfl | hx2
      · exact h3
      · exact h4 x hx2

/-! ### Helper lemmas about rule compilation -/

theorem filterMap_if {α β : Type} (p : α → Bool) (f : α → β) :
    ∀ l : List α,
      l.filterMap (fun c => if p c then some (f c) else none) =
        (l.filter p).map f := by
  intro l
  induction l with
  | nil => rfl
  | cons c cs ih =>
    by_cases h : p c
    · simp [List.filterMap_cons, List.filter_cons, h, ih]
    · simp [List.filterMap_cons, List.filter_cons, h, ih]

instance : IsTotal CategoryRule (fun a b => a.priority ≤ b.priority) :=
  ⟨fun a b => Int.le_total a.priority b.priority⟩

instance : IsTrans CategoryRule (fun a b => a.priority ≤ b.priority) :=
  ⟨fun _ _ _ hab hbc => Int.le_trans hab hbc⟩

theorem build_rules_perm (cats : List StoredCategory) :
    List.Perm (build_rules_from_storage cats)
      ((cats.filter categorySurvives).map ruleOfCategory) := by
  rw [build_rules_from_storage, filterMap_if]
  exact List.perm_insertionSort ..

theorem build_rules_sorted (cats : List StoredCategory) :
    (build_rules_from_storage cats).Pairwise (fun a b => a.priority ≤ b.priority) :=
  List.sorted_insertionSort _ _

theorem categorySurvives_name {c : StoredCategory}
    (h : categorySurvives c = true) : c.name ≠ "Uncategorized" := by
  rw [categorySurvives, Bool.and_eq_true] at h
  simpa using h.1

/-! ### Claim theorems -/

/-- C1 counterexample: the claim quantifies over every ordered rule list, but
for a rule literally named `"Uncategorized"` the engine's assignment leaves
the transaction equal to `"Uncategorized"`, so it is *not* excluded from
subsequent rules: the first matching rule here is the `"Uncategorized"` one,
yet the final category is the second rule's `"X"`. -/
theorem first_match_wins_counterexample :
    ruleMatchesRow (lowerStr "a") ⟨"Uncategorized", 1, ["a"], [false]⟩ = true ∧
    apply_rules_vectorized [⟨"a", "Uncategorized"⟩]
      [⟨"Uncategorized", 1, ["a"], [false]⟩, ⟨"X", 2, ["a"], [false]⟩] =
      .ok [⟨"a", "X"⟩] ∧
    ("X" : String) ≠ "Uncategorized" :=
  ⟨by decide, by decide, by decide⟩

/-- C1 (amended): for every batch and rule list in which no rule is named
`"Uncategorized"`, whenever `apply_rules_vectorized` returns normally each
transaction that entered `"Uncategorized"` ends with the name of the first
rule (in list order) with a matching non-empty pattern (`"Uncategorized"`
when none matches), and every other transaction keeps its category; the
two-rule Supermercado/Entretenimiento scenario yields exactly the claimed
categories. -/
theorem first_match_wins_spec :
    (∀ (txns out : List Txn) (rules : List CategoryRule),
      (∀ r ∈ rules, r.name ≠ "Uncategorized") →
      apply_rules_vectorized txns rules = .ok out →
      out.length = txns.length ∧
        ∀ i (hi : i < txns.length) (ho : i < out.length),
          out[i].category =
            if txns[i].category = "Uncategorized" then
              firstRuleName (lowerStr txns[i].details) rules
            else txns[i].category) ∧
    apply_rules_vectorized
      (withDefaultCategory ["COMPRA LULU HYPERMARKET", "PAGO NETFLIX"])
      [⟨"Supermercado", 1, ["LULU"], [false]⟩,
       ⟨"Entretenimiento", 2, ["NETFLIX"], [false]⟩] =
      .ok [⟨"COMPRA LULU HYPERMARKET", "Supermercado"⟩,
           ⟨"PAGO NETFLIX", "Entretenimiento"⟩] :=
  ⟨fun txns out rules hname h =>
    ⟨(apply_rules_vectorized_basic h).1, apply_rules_vectorized_first hname h⟩,
   by decide⟩

/-- Witness for C1 at a concrete batch and rule list. -/
theorem first_match_wins_witness :
    (∀ r ∈ ([⟨"Supermercado", 1, ["LULU"], [false]⟩] : List CategoryRule),
      r.name ≠ "Uncategorized") ∧
    ([⟨"COMPRA LULU", "Supermercado"⟩] : List Txn).length =
      ([⟨"COMPRA LULU", "Uncategorized"⟩] : List Txn).length :=
  ⟨by decide,
   (first_match_wins_spec.1 [⟨"COMPRA LULU", "Uncategorized"⟩]
      [⟨"COMPRA LULU", "Supermercado"⟩] [⟨"Supermercado", 1, ["LULU"], [false]⟩]
      (by decide) (by decide)).1⟩

/-- C2: rule compilation keeps exactly the non-`"Uncategorized"` categories
with at least one enabled keyword, one rule each (patterns are the enabled
keywords in stored order, as fixed by `ruleOfCategory`), and the result is
sorted ascending by priority; no produced rule is named `"Uncategorized"`. -/
theorem build_rules_spec :
    ∀ cats : List StoredCategory,
      List.Perm (build_rules_from_storage cats)
        ((cats.filter categorySurvives).map ruleOfCategory) ∧
      (build_rules_from_storage cats).Pairwise
        (fun a b => a.priority ≤ b.priority) ∧
      (∀ r, r ∈ build_rules_from_storage cats ↔
        ∃ c ∈ cats, categorySurvives c = true ∧ r = ruleOfCategory c) ∧
      (∀ r ∈ build_rules_from_storage cats, r.name ≠ "Uncategorized") := by
  intro cats
  have hperm := build_rules_perm cats
  refine ⟨hperm, build_rules_sorted cats, ?_, ?_⟩
  · intro r
    rw [hperm.mem_iff, List.mem_map]
    constructor
    · rintro ⟨c, hc, rfl⟩
      rcases List.mem_filter.mp hc with ⟨h1, h2⟩
      exact ⟨c, h1, h2, rfl⟩
    · rintro ⟨c, h1, h2, rfl⟩
      exact ⟨c, List.mem_filter.mpr ⟨h1, h2⟩, rfl⟩
  · intro r hr
    rcases List.mem_map.mp (hperm.mem_iff.mp hr) with ⟨c, hc, rfl⟩
    exact categorySurvives_name (List.mem_filter.mp hc).2

/-- Witness for C2 at a concrete snapshot. -/
theorem build_rules_spec_witness :
    (build_rules_from_storage
      [⟨1, "Uncategorized", 999, [⟨"X", false, true⟩]⟩,
       ⟨2, "B", 5, [⟨"N", false, true⟩]⟩,
       ⟨3, "C", 1, [⟨"D", false, false⟩]⟩,
       ⟨4, "A", 2, [⟨"L", false, true⟩]⟩]).Pairwise
      (fun a b => a.priority ≤ b.priority) :=
  (build_rules_spec _).2.1

/-- C3 counterexample: a malformed regex pattern (`"*"`) in the first rule
makes the whole batch fail with a raised `re.error`; the second rule's valid
pattern never runs and the `NETFLIX` transaction is left unclassified, so
the claimed isolation does not hold. -/
theorem malformed_regex_counterexample :
    parseRegex "*" = .error "nothing to repeat" ∧
    apply_rules_vectorized [⟨"PAGO NETFLIX", "Uncategorized"⟩]
      [⟨"Bad", 1, ["*"], [true]⟩, ⟨"Entretenimiento", 2, ["NETFLIX"], [false]⟩] =
      .error "nothing to repeat" :=
  ⟨by decide, by decide⟩

/-- C3 (amended): `apply_rules_vectorized` has no exception handling, so a
non-empty malformed regex pattern in the first rule aborts the whole batch
with an error whenever at least one transaction is still
`"Uncategorized"`. -/
theorem malformed_regex_aborts :
    ∀ (txns : List Txn) (r : CategoryRule) (rest : List CategoryRule),
      (∃ t ∈ txns, t.category = "Uncategorized") →
      (∃ pb ∈ r.patterns.zip r.is_regex_flags,
        pb.1 ≠ "" ∧ pb.2 = true ∧ ∃ e, parseRegex pb.1 = .error e) →
      ∃ e2, apply_rules_vectorized txns (r :: rest) = .error e2 :=
  fun txns r rest h1 h2 => applyRulesLoop_error_head _ txns r rest h1 h2

/-- Witness for C3 at a concrete batch and malformed pattern. -/
theorem malformed_regex_aborts_witness :
    (∃ t ∈ ([⟨"PAGO NETFLIX", "Uncategorized"⟩] : List Txn),
      t.category = "Uncategorized") ∧
    ∃ e2, apply_rules_vectorized [⟨"PAGO NETFLIX", "Uncategorized"⟩]
      [⟨"Bad", 1, ["*"], [true]⟩] = .error e2 :=
  ⟨by decide,
   malformed_regex_aborts _ _ _ (by decide)
     ⟨("*", true), by decide, by decide, by decide, "nothing to repeat", by decide⟩⟩

/-- C4 counterexample: a transaction that enters with a category other than
`"Uncategorized"` and matches no pattern of any rule (here: no rules at all)
keeps that category instead of ending `"Uncategorized"`. -/
theorem totality_default_counterexample :
    apply_rules_vectorized [⟨"SOME PAYMENT", "Viajes"⟩] [] =
      .ok [⟨"SOME PAYMENT", "Viajes"⟩] ∧
    ("Viajes" : String) ≠ "Uncategorized" :=
  ⟨by decide, by decide⟩

/-- C4 (amended): whenever `apply_rules_vectorized` returns normally, the
output batch has the same length, every transaction that entered
`"Uncategorized"` and matches no rule pattern ends `"Uncategorized"`, every
transaction that entered with another category keeps it, and every output
category is either the input category or the name of some rule (so each
transaction always carries exactly one definite category string). -/
theorem classification_totality_spec :
    ∀ (txns out : List Txn) (rules : List CategoryRule),
      apply_rules_vectorized txns rules = .ok out →
      out.length = txns.length ∧
        ∀ i (hi : i < txns.length) (ho : i < out.length),
          ((txns[i].category = "Uncategorized" ∧
              ∀ r ∈ rules, ruleMatchesRow (lowerStr txns[i].details) r = false) →
            out[i].category = "Uncategorized") ∧
          (txns[i].category ≠ "Uncategorized" →
            out[i].category = txns[i].category) ∧
          (out[i].category = txns[i].category ∨
            ∃ r ∈ rules, out[i].category = r.name) := by
  intro txns out rules h
  rcases apply_rules_vectorized_basic h with ⟨h1, h2⟩
  exact ⟨h1, fun i hi ho =>
    ⟨(h2 i hi ho).2.1, (h2 i hi ho).1, (h2 i hi ho).2.2⟩⟩

/-- Witness for C4: a no-match transaction of a fresh batch stays
`"Uncategorized"`. -/
theorem classification_totality_witness :
    (([⟨"ZZZ UNKNOWN", "Uncategorized"⟩] : List Txn)[0]).category =
      "Uncategorized" :=
  ((classification_totality_spec [⟨"ZZZ UNKNOWN", "Uncategorized"⟩]
      [⟨"ZZZ UNKNOWN", "Uncategorized"⟩] [⟨"A", 1, ["XQW"], [false]⟩]
      (by decide)).2 0 (by decide) (by decide)).1 ⟨by decide, by decide⟩

/-- C5: keyword extraction returns `None` exactly when no token of length at
least 3 that is not purely numeric survives, and otherwise the upper-cased
leftmost longest candidate (the `find?` clause pins the leftmost one);
`"COMPRA LULU HYPERMARKET 45.67"` yields `"HYPERMARKET"`, and a text of only
short and numeric tokens yields `None`. -/
theorem extract_keyword_spec :
    (∀ s : String,
      extract_keyword_from_details s = none ↔ candidateTokens s = []) ∧
    (∀ (s k : String), extract_keyword_from_details s = some k →
      ∃ t ∈ candidateTokens s,
        k = ⟨t.map upperChar⟩ ∧
        (∀ u ∈ candidateTokens s, u.length ≤ t.length) ∧
        (candidateTokens s).find? (fun u => u.length = t.length) = some t) ∧
    extract_keyword_from_details "COMPRA LULU HYPERMARKET 45.67" =
      some "HYPERMARKET" ∧
    extract_keyword_from_details "AB 12 45.67" = none := by
  refine ⟨extract_none_iff, ?_, by decide, by decide⟩
  intro s k h
  rcases extract_some_shape h with ⟨c, cs, hc, hk⟩
  refine ⟨pickLongest c cs, ?_, hk, ?_, ?_⟩
  · rw [hc]
    rcases pickLongest_mem cs c with h2 | h2
    · rw [h2]; exact List.mem_cons_self ..
    · exact List.mem_cons_of_mem _ h2
  · intro u hu
    rw [hc] at hu
    rcases List.mem_cons.mp hu with rfl | hu2
    · exact pickLongest_acc_le cs u
    · exact pickLongest_ge cs c u hu2
  · rw [hc]
    exact pickLongest_find cs c

/-- Witness for C5 at a concrete details text. -/
theorem extract_keyword_spec_witness :
    ∃ t ∈ candidateTokens "COMPRA LULU HYPERMARKET 45.67",
      ("HYPERMARKET" : String) = ⟨t.map upperChar⟩ ∧
      (∀ u ∈ candidateTokens "COMPRA LULU HYPERMARKET 45.67",
        u.length ≤ t.length) ∧
      (candidateTokens "COMPRA LULU HYPERMARKET 45.67").find?
        (fun u => u.length = t.length) = some t :=
  extract_keyword_spec.2.1 "COMPRA LULU HYPERMARKET 45.67" "HYPERMARKET"
    (by decide)

/-- C6: matching is case-insensitive substring containment for
`is_regex=false` (both pattern and details case-folded, with an explicit
decomposition witnessing containment), and `re.search` semantics for
`is_regex=true` — a leading `^` anchors the match at the start of the text,
an unanchored pattern may match at any position (search, not full match).
Concretely, `"lulu"` matches `"COMPRA LULU HYPERMARKET"`, `"^ATM.*"` matches
`"ATM WITHDRAWAL 500"` but not `"PAYMENT ATM FEE"`, while the unanchored
regex `"ATM"` matches `"PAYMENT ATM FEE"` in the middle. -/
theorem matching_semantics_spec :
    (∀ d p : String, patternMatchesRow d p false = true ↔
      ∃ l r, (lowerStr d).data = l ++ (lowerStr p).data ++ r) ∧
    (∀ (r : CompiledRegex) (d : String), r.anchored = true →
      regexSearch r d = matchPieces r.pieces d.data) ∧
    (∀ (r : CompiledRegex) (d : String), r.anchored = false →
      (regexSearch r d = true ↔
        ∃ n, matchPieces r.pieces (d.data.drop n) = true)) ∧
    patternMatchesRow (lowerStr "COMPRA LULU HYPERMARKET") "lulu" false = true ∧
    patternMatchesRow (lowerStr "ATM WITHDRAWAL 500") "^ATM.*" true = true ∧
    patternMatchesRow (lowerStr "PAYMENT ATM FEE") "^ATM.*" true = false ∧
    patternMatchesRow (lowerStr "PAYMENT ATM FEE") "ATM" true = true := by
  refine ⟨?_, ?_, ?_, by decide, by decide, by decide, by decide⟩
  · intro d p
    show strContainsCI d p = true ↔ _
    rw [strContainsCI]
    exact substrOf_iff _ _
  · intro r d hr
    rw [regexSearch, if_pos hr]
  · intro r d hr
    rw [regexSearch, if_neg (by simp [hr])]
    exact searchPos_iff _ _

/-- Witness for C6: the anchored characterisation applied to a concrete
compiled pattern. -/
theorem matching_semantics_witness :
    regexSearch ⟨true, [RPiece.once (RAtom.lit 'a')]⟩ "bca" =
      matchPieces [RPiece.once (RAtom.lit 'a')] "bca".data :=
  matching_semantics_spec.2.1 ⟨true, [RPiece.once (RAtom.lit 'a')]⟩ "bca" rfl

/-- C7: patterns are stripped at the persistence boundary (`add_keyword`),
so adding a keyword with surrounding whitespace has exactly the same effect
— on the stored snapshot and hence on classification — as adding the
stripped keyword; internal whitespace, by contrast, must match the details
text verbatim, and an untrimmed pattern `" LULU "` would behave differently
from `"LULU"` if it ever reached matching. -/
theorem pattern_trimming_spec :
    (∀ (db : List StoredCategory) (cid : Nat) (p : String) (b : Bool),
      add_keyword db cid p b = add_keyword db cid (stripStr p) b) ∧
    (∀ (db : List StoredCategory) (cid : Nat) (p : String) (b : Bool)
        (txns : List Txn),
      apply_rules_vectorized txns
          (build_rules_from_storage (add_keyword db cid p b)) =
        apply_rules_vectorized txns
          (build_rules_from_storage (add_keyword db cid (stripStr p) b))) ∧
    strContainsCI "pago lulu  hyper x" "LULU HYPER" = false ∧
    strContainsCI "pago lulu hyper x" "LULU HYPER" = true ∧
    strContainsCI "lulu card" " LULU " = false ∧
    strContainsCI "lulu card" "LULU" = true := by
  have h1 : ∀ (db : List StoredCategory) (cid : Nat) (p : String) (b : Bool),
      add_keyword db cid p b = add_keyword db cid (stripStr p) b := by
    intro db cid p b
    simp only [add_keyword, stripStr_idem]
  refine ⟨h1, ?_, by decide, by decide, by decide, by decide⟩
  intro db cid p b txns
  rw [h1]

/-- Witness for C7 at a concrete keyword. -/
theorem pattern_trimming_witness :
    add_keyword [⟨2, "Supermercado", 10, []⟩] 2 "  LULU " false =
      add_keyword [⟨2, "Supermercado", 10, []⟩] 2 (stripStr "  LULU ") false :=
  pattern_trimming_spec.1 [⟨2, "Supermercado", 10, []⟩] 2 "  LULU " false

/-- C8: for an edited transaction whose category changed, if keyword
extraction produces a keyword and the new category name resolves to an id,
the store gains exactly one enabled non-regex keyword with exactly that
pattern under that id (the extracted keyword is non-empty and already
stripped, so `add_keyword` stores it verbatim); if the name does not resolve
or no keyword is produced, the store is unchanged and no category is
created. -/
theorem learning_feedback_spec :
    ∀ (db : List StoredCategory) (details oldCat newCat : String),
      oldCat ≠ newCat →
      (∀ kw, extract_keyword_from_details details = some kw →
        (∀ cid, get_category_id_by_name db newCat = some cid →
          learn_from_edit db details oldCat newCat =
            db.map (fun c =>
              if c.id = cid then
                { c with keywords := c.keywords ++ [⟨kw, false, true⟩] }
              else c)) ∧
        (get_category_id_by_name db newCat = none →
          learn_from_edit db details oldCat newCat = db)) ∧
      (extract_keyword_from_details details = none →
        learn_from_edit db details oldCat newCat = db) := by
  intro db details oldCat newCat hne
  constructor
  · intro kw hkw
    constructor
    · intro cid hcid
      rcases extract_keyword_clean hkw with ⟨hkne, hkstrip⟩
      rw [learn_from_edit, if_neg hne, hkw, hcid]
      show add_keyword db cid kw false = _
      rw [add_keyword, hkstrip, if_neg hkne]
    · intro hcid
      rw [learn_from_edit, if_neg hne, hkw, hcid]
  · intro hnone
    rw [learn_from_edit, if_neg hne, hnone]

/-- Witness for C8: learning from one concrete edit appends exactly one
enabled non-regex keyword. -/
theorem learning_feedback_witness :
    learn_from_edit [⟨2, "Supermercado", 10, []⟩] "COMPRA CARREFOUR EXPRESS"
      "Uncategorized" "Supermercado" =
      ([⟨2, "Supermercado", 10, []⟩] : List StoredCategory).map (fun c =>
        if c.id = 2 then
          { c with keywords := c.keywords ++ [⟨"CARREFOUR", false, true⟩] }
        else c) :=
  ((learning_feedback_spec [⟨2, "Supermercado", 10, []⟩]
      "COMPRA CARREFOUR EXPRESS" "Uncategorized" "Supermercado"
      (by decide)).1 "CARREFOUR" (by decide)).1 2 (by decide)

/-- C9: the fuzzy fallback returns no result when the similarity library is
unavailable, when the normalised details text is empty, or when the
candidate list is empty; any returned candidate is a best-scoring one at or
above the threshold; no result is returned when every candidate scores
below the threshold (the Python default threshold is 80); and — positively
— whenever the normalised details text is non-empty and some candidate
reaches the threshold, the function does return a best-scoring candidate
whose score is at or above the threshold.  The scorer the code passes is
`token_sort_ratio`, which sorts the whitespace tokens of both sides before
scoring and is therefore insensitive to token order. -/
theorem fuzzy_fallback_spec :
    (∀ (scorer : String → String → Nat) (details : String)
        (cands : List String) (t : Nat),
      fuzzy_categorize_single_details false scorer details cands t = none) ∧
    (∀ (hr : Bool) (scorer : String → String → Nat) (details : String)
        (cands : List String) (t : Nat), normalize_text details = "" →
      fuzzy_categorize_single_details hr scorer details cands t = none) ∧
    (∀ (hr : Bool) (scorer : String → String → Nat) (details : String)
        (t : Nat),
      fuzzy_categorize_single_details hr scorer details [] t = none) ∧
    (∀ (scorer : String → String → Nat) (details : String)
        (cands : List String) (t : Nat) (best : String),
      fuzzy_categorize_single_details true scorer details cands t = some best →
      best ∈ cands ∧ t ≤ scorer (normalize_text details) best ∧
      ∀ x ∈ cands, scorer (normalize_text details) x ≤
        scorer (normalize_text details) best) ∧
    (∀ (scorer : String → String → Nat) (details : String)
        (cands : List String) (t : Nat),
      (∀ x ∈ cands, scorer (normalize_text details) x < t) →
      fuzzy_categorize_single_details true scorer details cands t = none) ∧
    (∀ (scorer : String → String → Nat) (details : String)
        (cands : List String) (t : Nat),
      normalize_text details ≠ "" →
      (∃ x ∈ cands, t ≤ scorer (normalize_text details) x) →
      ∃ best, fuzzy_categorize_single_details true scorer details cands t =
          some best ∧
        best ∈ cands ∧ t ≤ scorer (normalize_text details) best ∧
        ∀ x ∈ cands, scorer (normalize_text details) x ≤
          scorer (normalize_text details) best) ∧
    (∀ (ratioFn : String → String → Nat) (x : String),
      scoreTokenSort ratioFn "pago netflix" x =
        scoreTokenSort ratioFn "netflix  pago" x) := by
  refine ⟨?_, ?_, ?_, ?_, ?_, ?_, ?_⟩
  · intro scorer details cands t
    rfl
  · intro hr scorer details cands t htext
    cases hr with
    | false => rfl
    | true =>
      rw [fuzzy_categorize_single_details]
      simp [htext]
  · intro hr scorer details t
    cases hr with
    | false => rfl
    | true =>
      rw [fuzzy_categorize_single_details]
      simp
  · intro scorer details cands t best h
    rw [fuzzy_categorize_single_details] at h
    simp only [Bool.not_true, Bool.false_eq_true, if_false] at h
    by_cases htext : normalize_text details = ""
    · rw [if_pos (by simp [htext])] at h
      cases h
    · by_cases hcands : cands.isEmpty
      · rw [if_pos (by simp [hcands])] at h
        cases h
      · rw [if_neg (by simp [htext, hcands])] at h
        rcases he : extractOne scorer (normalize_text details) cands
            with - | bs <;> rw [he] at h
        · cases h
        · have h' : (if t ≤ bs.2 then some bs.1 else none) = some best := h
          by_cases hth : t ≤ bs.2
          · rw [if_pos hth] at h'
            rcases extractOne_spec he with ⟨h1, h2, h3⟩
            rcases Option.some.inj h' with rfl
            exact ⟨h1, by rw [← h2]; exact hth,
              fun x hx => by rw [← h2]; exact h3 x hx⟩
          · rw [if_neg hth] at h'
            cases h'
  · intro scorer details cands t hsmall
    rw [fuzzy_categorize_single_details]
    simp only [Bool.not_true, Bool.false_eq_true, if_false]
    by_cases htext : normalize_text details = ""
    · rw [if_pos (by simp [htext])]
    · by_cases hcands : cands.isEmpty
      · rw [if_pos (by simp [hcands])]
      · rw [if_neg (by simp [htext, hcands])]
        rcases he : extractOne scorer (normalize_text details) cands with - | bs
        · rfl
        · rcases extractOne_spec he with ⟨h1, h2, -⟩
          have hlt : bs.2 < t := by
            rw [h2]
            exact hsmall bs.1 h1
          show (if t ≤ bs.2 then some bs.1 else none) = none
          rw [if_neg (by omega)]
  · intro scorer details cands t htext hex
    rcases hex with ⟨x, hx, hxt⟩
    have hcands : cands.isEmpty = false := by
      cases cands with
      | nil => cases hx
      | cons c cs => rfl
    rcases he : extractOne scorer (normalize_text details) cands with - | bs
    · exfalso
      cases cands with
      | nil => cases hx
      | cons c cs =>
        rw [extractOne] at he
        cases he
    · rcases extractOne_spec he with ⟨h1, h2, h3⟩
      have hth : t ≤ bs.2 := Nat.le_trans hxt (h3 x hx)
      have hfz : fuzzy_categorize_single_details true scorer details cands t =
          some bs.1 := by
        rw [fuzzy_categorize_single_details]
        simp only [Bool.not_true, Bool.false_eq_true, if_false]
        rw [if_neg (by simp [htext, hcands]), he]
        show (if t ≤ bs.2 then some bs.1 else none) = some bs.1
        rw [if_pos hth]
      refine ⟨bs.1, hfz, h1, ?_, ?_⟩
      · rw [← h2]
        exact hth
      · intro y hy
        rw [← h2]
        exact h3 y hy
  · intro ratioFn x
    rfl

/-- Witness for C9: a concrete run in which a candidate reaches the
threshold and the fallback does return it. -/
theorem fuzzy_fallback_witness :
    (normalize_text "PAGO NETFLIX" ≠ "") ∧
    (∃ x ∈ (["Entretenimiento"] : List String),
      80 ≤ (fun _ _ => (90 : Nat)) (normalize_text "PAGO NETFLIX") x) ∧
    ∃ best, fuzzy_categorize_single_details true (fun _ _ => (90 : Nat))
        "PAGO NETFLIX" ["Entretenimiento"] 80 = some best ∧
      best ∈ (["Entretenimiento"] : List String) ∧
      80 ≤ (fun _ _ => (90 : Nat)) (normalize_text "PAGO NETFLIX") best ∧
      ∀ x ∈ (["Entretenimiento"] : List String),
        (fun _ _ => (90 : Nat)) (normalize_text "PAGO NETFLIX") x ≤
          (fun _ _ => (90 : Nat)) (normalize_text "PAGO NETFLIX") best :=
  ⟨by decide, ⟨"Entretenimiento", by decide, by decide⟩,
   fuzzy_fallback_spec.2.2.2.2.2.1 _ _ _ _ (by decide)
     ⟨"Entretenimiento", by decide, by decide⟩⟩

/-- C10 (implicit): an empty pattern is skipped (`if not pattern: continue`),
so a rule all of whose patterns are empty assigns nothing — dropping it
leaves classification unchanged — even though the empty string is a
substring of every details text. -/
theorem empty_pattern_spec :
    (∀ (txns : List Txn) (r : CategoryRule) (rest : List CategoryRule),
      (∀ p ∈ r.patterns, p = "") →
      apply_rules_vectorized txns (r :: rest) = apply_rules_vectorized txns rest) ∧
    (∀ d : List Char, substrOf [] d = true) ∧
    apply_rules_vectorized [⟨"PAGO NETFLIX", "Uncategorized"⟩]
      [⟨"Todo", 1, [""], [false]⟩] =
      .ok [⟨"PAGO NETFLIX", "Uncategorized"⟩] := by
  refine ⟨?_, ?_, by decide⟩
  · intro txns r rest hp
    exact applyRulesLoop_skip_empty _ txns r rest hp
  · intro d
    cases d with
    | nil => rfl
    | cons c cs => simp [substrOf, leadsWith]

/-- Witness for C10: a rule with only empty patterns can be dropped. -/
theorem empty_pattern_witness :
    (∀ p ∈ (⟨"E", 1, ["", ""], [false, true]⟩ : CategoryRule).patterns, p = "") ∧
    apply_rules_vectorized [⟨"A", "Uncategorized"⟩]
      [⟨"E", 1, ["", ""], [false, true]⟩] =
      apply_rules_vectorized [⟨"A", "Uncategorized"⟩] [] :=
  ⟨by decide, empty_pattern_spec.1 _ _ _ (by decide)⟩
